import Mathlib

/-!
Verification of `random_id` (`src/lib.rs`): a keyed deterministic permutation of
`[0, 10^digits)` exposed as a forward-only iterator.

Shallow embedding notes.

* The struct `RandomIdGenerator { key, digits, next, tweak }` stores `digits` and
  `next` as `u16`.  The `key`/`tweak` fields are consumed only by the external FF1
  encryption capability (the `fpe` crate, which is not part of this repository);
  for a fixed key and tweak the whole pipeline
  `FF1::<Aes256>::new(&self.key, 10).ok()` followed by
  `ff.encrypt(&self.tweak, input).ok()` is a single function from the input digit
  sequence to an optional output digit sequence.  We therefore model the state as
  the pair `(digits, next)` and parametrise every operation by an abstract
  `permute : List ℕ → Option (List ℕ)` standing for that pipeline (`none` models a
  `CryptoFailure`, i.e. the `Err` swallowed by `.ok()`).

* `u16` values are embedded as `ℕ`; arithmetic that can overflow or underflow in
  the source is modelled with checked operations that return `none` on overflow,
  matching Rust's declared semantics for integer overflow (a program error, a
  panic in debug builds).  Every stateful iterator operation therefore returns
  `Option (Option ℕ × RandomIdGenerator)`: the outer `Option` is `none` on an
  arithmetic abort, the inner `Option ℕ` is the iterator's `Option<u16>` item.
-/

/-- Largest value of the Rust `u16` type. -/
def U16MAX : ℕ := 65535

/-- Fuel-indexed version of the `while number > 0` loop in `split_number_digits`:
collects the decimal digits of `n` least-significant first.  The fuel only makes
the recursion structural; `digitsFuel f n` is independent of `f` once `n ≤ f`. -/
def digitsFuel : ℕ → ℕ → List ℕ
  | 0, _ => []
  | _ + 1, 0 => []
  | f + 1, n + 1 => ((n + 1) % 10) :: digitsFuel f ((n + 1) / 10)

/-- The `while number > 0 { digits.push(number % 10); number /= 10 }` loop of
`split_number_digits`: decimal digits of `n`, least-significant first. -/
def digitsLoop (n : ℕ) : List ℕ := digitsFuel n n

/-- The state of `RandomIdGenerator`: the `digits` width field and the `next`
cursor field (both `u16` in the source).  `key` and `tweak` are folded into the
abstract `permute` parameter of the operations. -/
structure RandomIdGenerator where
  digits : ℕ
  next : ℕ
  deriving DecidableEq, Repr

/-- Modelled from the spec: the §6 Keyed Permutation Capability (the external
`fpe`/FF1 crate, absent from `src/`).  For a fixed key and tweak it is a
function on digit sequences that either returns a transformed sequence or fails
with `CryptoFailure` (`none`).  Per §6 its input type is a Digit Sequence of
length `d`: inputs of any other length are outside its domain and fail; on a
valid input a successful call returns a Digit Sequence of the same length `d`. -/
structure IsCapability (d : ℕ) (permute : List ℕ → Option (List ℕ)) : Prop where
  rejects_wrong_length : ∀ l, l.length ≠ d → permute l = none
  output_valid : ∀ l out, l.length = d → (∀ x ∈ l, x < 10) → permute l = some out →
    out.length = d ∧ ∀ x ∈ out, x < 10

namespace RandomId

/-- `fn split_number_digits(&self, mut number: u16) -> Vec<u16>`: push the decimal
digits of `number` least-significant first, pad with `0` until the length reaches
`self.digits`, then reverse (most-significant first, zero-padded on the left).
The method reads only `self.digits`, passed here as `d`. -/
def split_number_digits (d : ℕ) (number : ℕ) : List ℕ :=
  (digitsLoop number ++ List.replicate (d - (digitsLoop number).length) 0).reverse

/-- `fn join_number_digits(digits: &[u16]) -> u16`:
`digits.iter().fold(0, |acc, &digit| acc * 10 + digit)`. -/
def join_number_digits (l : List ℕ) : ℕ :=
  l.foldl (fun acc d => acc * 10 + d) 0

/-- `fn len(&self) -> u16 { 10u16.pow(self.digits as u32) }`.  The `u16` power
overflows (aborts) exactly when the mathematical value `10 ^ digits` exceeds
`u16::MAX`, i.e. when `digits ≥ 5`. -/
def len (g : RandomIdGenerator) : Option ℕ :=
  if 10 ^ g.digits ≤ U16MAX then some (10 ^ g.digits) else none

/-- `fn remaining(&self) -> usize { (self.len() - self.next) as usize }`.  The
`u16` subtraction underflows (aborts) when `next > len`. -/
def remaining (g : RandomIdGenerator) : Option ℕ :=
  match len g with
  | none => none
  | some L => if g.next ≤ L then some (L - g.next) else none

/-- `fn next(&mut self) -> Option<u16>`: encode the cursor, run the encryption
pipeline (`FF1::new(..).ok()?` and `encrypt(..).ok()?` are both folded into
`permute`; a failure returns `None` with the state untouched), then increment the
cursor and return the decoded output.  The `u16` increment aborts at `U16MAX`. -/
def next (permute : List ℕ → Option (List ℕ)) (g : RandomIdGenerator) :
    Option (Option ℕ × RandomIdGenerator) :=
  match permute (split_number_digits g.digits g.next) with
  | none => some (none, g)
  | some out =>
    if g.next + 1 ≤ U16MAX then
      some (some (join_number_digits out), ⟨g.digits, g.next + 1⟩)
    else none

/-- `fn size_hint(&self) -> (usize, Option<usize>)`:
`(self.remaining(), Some(self.remaining()))`. -/
def size_hint (g : RandomIdGenerator) : Option (ℕ × Option ℕ) :=
  match remaining g with
  | none => none
  | some r => some (r, some r)

/-- `fn count(mut self) -> usize`: read `remaining()`, set `next = len()` so the
iterator is exhausted, and return the remaining count.  Returned as the pair
(count, final state). -/
def count (g : RandomIdGenerator) : Option (ℕ × RandomIdGenerator) :=
  match remaining g with
  | none => none
  | some r =>
    match len g with
    | none => none
    | some L => some (r, ⟨g.digits, L⟩)

/-- `fn last(mut self) -> Option<u16>`: return `None` if `next >= len()`,
otherwise set `next = len() - 1` and delegate to `next()`. -/
def last (permute : List ℕ → Option (List ℕ)) (g : RandomIdGenerator) :
    Option (Option ℕ × RandomIdGenerator) :=
  match len g with
  | none => none
  | some L =>
    if g.next ≥ L then some (none, g)
    else next permute ⟨g.digits, L - 1⟩

/-- `fn nth(&mut self, n: usize) -> Option<u16>`: the skip count is truncated by
`n as u16` (modulo `2 ^ 16`); the bound check `self.next + n as u16 >= self.len()`
first performs the `u16` addition (abort on overflow), then compares with
`len()`; if in bounds, advance the cursor by the truncated count and delegate to
`next()`. -/
def nth (permute : List ℕ → Option (List ℕ)) (g : RandomIdGenerator) (n : ℕ) :
    Option (Option ℕ × RandomIdGenerator) :=
  if g.next + n % 65536 ≤ U16MAX then
    match len g with
    | none => none
    | some L =>
      if g.next + n % 65536 ≥ L then some (none, g)
      else next permute ⟨g.digits, g.next + n % 65536⟩
  else none

/-- Runs `k` successive `next()` calls, collecting the `k` returned items in
order together with the final state; aborts (`none`) if any call aborts. -/
def runNext (permute : List ℕ → Option (List ℕ)) (g : RandomIdGenerator) :
    ℕ → Option (List (Option ℕ) × RandomIdGenerator)
  | 0 => some ([], g)
  | k + 1 =>
    match next permute g with
    | none => none
    | some (r, g1) =>
      match runNext permute g1 k with
      | none => none
      | some (rs, gf) => some (r :: rs, gf)

/-- The state reached after `k` successive `next()` calls. -/
def runState (permute : List ℕ → Option (List ℕ)) (g : RandomIdGenerator)
    (k : ℕ) : Option RandomIdGenerator :=
  match runNext permute g k with
  | none => none
  | some (_, gf) => some gf

end RandomId

section CodecLemmas

theorem digitsFuel_zero (f : ℕ) : digitsFuel f 0 = [] := by
  cases f <;> rfl

theorem digitsFuel_congr :
    ∀ f1 f2 n : ℕ, n ≤ f1 → n ≤ f2 → digitsFuel f1 n = digitsFuel f2 n := by
  intro f1
  induction f1 with
  | zero =>
    intro f2 n h1 _
    have hn : n = 0 := Nat.le_zero.mp h1
    subst hn
    rw [digitsFuel_zero, digitsFuel_zero]
  | succ k ih =>
    intro f2 n h1 h2
    cases n with
    | zero => rw [digitsFuel_zero, digitsFuel_zero]
    | succ m =>
      cases f2 with
      | zero => exact absurd h2 (by omega)
      | succ j =>
        show ((m + 1) % 10) :: digitsFuel k ((m + 1) / 10) =
          ((m + 1) % 10) :: digitsFuel j ((m + 1) / 10)
        have hlt : (m + 1) / 10 < m + 1 := Nat.div_lt_self (Nat.succ_pos m) (by norm_num)
        rw [ih j ((m + 1) / 10) (by omega) (by omega)]

theorem digitsLoop_zero : digitsLoop 0 = [] := rfl

theorem digitsLoop_succ (n : ℕ) (h : n ≠ 0) :
    digitsLoop n = n % 10 :: digitsLoop (n / 10) := by
  obtain ⟨m, rfl⟩ := Nat.exists_eq_succ_of_ne_zero h
  show digitsFuel (m + 1) (m + 1) = _
  have hlt : (m + 1) / 10 < m + 1 := Nat.div_lt_self (Nat.succ_pos m) (by norm_num)
  show ((m + 1) % 10) :: digitsFuel m ((m + 1) / 10) = _
  rw [digitsFuel_congr m ((m + 1) / 10) ((m + 1) / 10) (by omega) le_rfl]
  rfl

/-- The digit-collecting loop agrees with Mathlib's `Nat.digits 10`. -/
theorem digitsLoop_eq_digits (n : ℕ) : digitsLoop n = Nat.digits 10 n := by
  induction n using Nat.strong_induction_on with
  | _ n ih =>
    rcases eq_or_ne n 0 with rfl | h
    · simp [digitsLoop_zero]
    · rw [digitsLoop_succ n h,
        Nat.digits_def' (by norm_num : (1:ℕ) < 10) (Nat.pos_of_ne_zero h),
        ih (n / 10) (Nat.div_lt_self (Nat.pos_of_ne_zero h) (by norm_num))]

theorem digitsLoop_len_le {d v : ℕ} (hv : v < 10 ^ d) : (digitsLoop v).length ≤ d := by
  rw [digitsLoop_eq_digits]
  rcases eq_or_ne v 0 with rfl | h
  · simp
  · rw [Nat.digits_len 10 v (by norm_num) h]
    have := (Nat.lt_pow_iff_log_lt (by norm_num : (1:ℕ) < 10) h).mp hv
    omega

theorem digitsLoop_len_pow (d : ℕ) : (digitsLoop (10 ^ d)).length = d + 1 := by
  rw [digitsLoop_eq_digits,
    Nat.digits_len 10 (10 ^ d) (by norm_num) (by positivity),
    Nat.log_pow (by norm_num : (1:ℕ) < 10)]

theorem digitsLoop_digit_lt {v x : ℕ} (hx : x ∈ digitsLoop v) : x < 10 := by
  rw [digitsLoop_eq_digits] at hx
  exact Nat.digits_lt_base (by norm_num) hx

namespace RandomId

theorem split_length (d v : ℕ) :
    (split_number_digits d v).length =
      (digitsLoop v).length + (d - (digitsLoop v).length) := by
  simp [split_number_digits]
  omega

/-- Encoding a value below `10 ^ d` yields exactly `d` digits. -/
theorem split_length_of_lt {d v : ℕ} (hv : v < 10 ^ d) :
    (split_number_digits d v).length = d := by
  have h := digitsLoop_len_le hv
  rw [split_length]
  omega

/-- Encoding the domain size `10 ^ d` itself yields `d + 1` digits, one more than
the configured width. -/
theorem split_length_pow (d : ℕ) :
    (split_number_digits d (10 ^ d)).length = d + 1 := by
  rw [split_length, digitsLoop_len_pow]
  omega

theorem split_digit_lt {d v x : ℕ} (hx : x ∈ split_number_digits d v) : x < 10 := by
  simp only [split_number_digits, List.mem_reverse, List.mem_append,
    List.mem_replicate] at hx
  rcases hx with h | h
  · exact digitsLoop_digit_lt h
  · omega

theorem join_replicate_zero_append (k : ℕ) (l : List ℕ) :
    join_number_digits (List.replicate k 0 ++ l) = join_number_digits l := by
  induction k with
  | zero => rfl
  | succ m ih => simpa [List.replicate_succ, join_number_digits] using ih

theorem join_reverse_digitsLoop (n : ℕ) :
    join_number_digits (digitsLoop n).reverse = n := by
  induction n using Nat.strong_induction_on with
  | _ n ih =>
    rcases eq_or_ne n 0 with rfl | h
    · rfl
    · rw [digitsLoop_succ n h]
      simp only [List.reverse_cons, join_number_digits, List.foldl_append]
      have := ih (n / 10) (Nat.div_lt_self (Nat.pos_of_ne_zero h) (by norm_num))
      simp only [join_number_digits] at this
      rw [this]
      simp only [List.foldl_cons, List.foldl_nil]
      omega

/-- The decode of an encode is the identity, with no hypotheses at all: the
encoder never truncates and only adds leading zeros, which the decoder's fold
ignores. -/
theorem join_split (d v : ℕ) :
    join_number_digits (split_number_digits d v) = v := by
  rw [split_number_digits, List.reverse_append, List.reverse_replicate,
    join_replicate_zero_append, join_reverse_digitsLoop]

end RandomId

end CodecLemmas

namespace RandomId

theorem next_of_fail {permute : List ℕ → Option (List ℕ)} {g : RandomIdGenerator}
    (h : permute (split_number_digits g.digits g.next) = none) :
    next permute g = some (none, g) := by
  simp [next, h]

theorem next_of_some {permute : List ℕ → Option (List ℕ)} {g : RandomIdGenerator}
    {out : List ℕ} (h : permute (split_number_digits g.digits g.next) = some out)
    (hinc : g.next + 1 ≤ U16MAX) :
    next permute g = some (some (join_number_digits out), ⟨g.digits, g.next + 1⟩) := by
  simp [next, h, hinc]

/-- Under the §6 capability contract, stepping at cursor `10 ^ d` (the exhausted
position) returns no value and leaves the state untouched: the encoding of the
cursor has `d + 1` digits, which the capability rejects. -/
theorem next_at_pow {d : ℕ} {permute : List ℕ → Option (List ℕ)}
    (hcap : IsCapability d permute) :
    next permute ⟨d, 10 ^ d⟩ = some (none, ⟨d, 10 ^ d⟩) := by
  refine next_of_fail (hcap.rejects_wrong_length _ ?_)
  show (split_number_digits d (10 ^ d)).length ≠ d
  rw [split_length_pow]
  omega
/-- A run whose results are all `some` advances the cursor by exactly its length
and preserves the width. -/
theorem runNext_all_some {permute : List ℕ → Option (List ℕ)} :
    ∀ (k : ℕ) (g gf : RandomIdGenerator) (rs : List (Option ℕ)),
      runNext permute g k = some (rs, gf) → (∀ r ∈ rs, r.isSome) →
      gf.digits = g.digits ∧ gf.next = g.next + k := by
  intro k
  induction k with
  | zero =>
    intro g gf rs h _
    simp only [runNext, Option.some.injEq, Prod.mk.injEq] at h
    obtain ⟨-, h2⟩ := h
    subst h2
    omega
  | succ m ih =>
    intro g gf rs h hall
    simp only [runNext] at h
    rcases hn : next permute g with _ | ⟨r, g1⟩
    · simp only [hn] at h
      exact Option.noConfusion h
    · simp only [hn] at h
      rcases hr : runNext permute g1 m with _ | ⟨rs2, gf2⟩
      · simp only [hr] at h
        exact Option.noConfusion h
      · simp only [hr, Option.some.injEq, Prod.mk.injEq] at h
        obtain ⟨h5, h6⟩ := h
        subst h5
        subst h6
        have hrsome : r.isSome := hall r (List.mem_cons_self r rs2)
        obtain ⟨out, hout⟩ := Option.isSome_iff_exists.mp hrsome
        subst hout
        simp only [next] at hn
        rcases hp : permute (split_number_digits g.digits g.next) with _ | o
        · simp only [hp] at hn
          simp at hn
        · simp only [hp] at hn
          by_cases hinc : g.next + 1 ≤ U16MAX
          · simp only [hinc, if_true, Option.some.injEq, Prod.mk.injEq] at hn
            obtain ⟨-, h8⟩ := hn
            subst h8
            obtain ⟨hd2, hn2⟩ :=
              ih _ _ rs2 hr fun r hr2 => hall r (List.mem_cons_of_mem _ hr2)
            simp only at hd2 hn2
            exact ⟨hd2, by omega⟩
          · simp only [hinc, if_false] at hn
            exact Option.noConfusion hn

/-- Once the capability fails on the encoding of the current cursor, every
further `next()` call returns no value and leaves the state untouched. -/
theorem runNext_stuck {permute : List ℕ → Option (List ℕ)} {g : RandomIdGenerator}
    (h : permute (split_number_digits g.digits g.next) = none) :
    ∀ j, runNext permute g j = some (List.replicate j none, g) := by
  intro j
  induction j with
  | zero => rfl
  | succ m ih =>
    simp only [runNext, next_of_fail h, ih, List.replicate_succ]

/-- If the capability succeeds on the `k` encodings starting at the cursor and
the cursor stays within `u16` range, then `k` calls to `next()` run without
abort and advance the cursor by exactly `k`. -/
theorem runNext_exists_of_isSome {permute : List ℕ → Option (List ℕ)} :
    ∀ (k : ℕ) (g : RandomIdGenerator),
      (∀ i < k, (permute (split_number_digits g.digits (g.next + i))).isSome) →
      g.next + k ≤ U16MAX →
      ∃ rs, runNext permute g k = some (rs, ⟨g.digits, g.next + k⟩) := by
  intro k
  induction k with
  | zero =>
    intro g _ _
    refine ⟨[], ?_⟩
    cases g
    rfl
  | succ m ih =>
    intro g hs hb
    have h0 := hs 0 (by omega)
    rw [Nat.add_zero] at h0
    obtain ⟨out, hout⟩ := Option.isSome_iff_exists.mp h0
    have hnx := next_of_some hout (by omega)
    have hs2 : ∀ i < m,
        (permute (split_number_digits (RandomIdGenerator.mk g.digits (g.next + 1)).digits
          ((RandomIdGenerator.mk g.digits (g.next + 1)).next + i))).isSome := by
      intro i hi
      have h2 := hs (i + 1) (by omega)
      have e : g.next + (i + 1) = g.next + 1 + i := by omega
      rw [e] at h2
      exact h2
    obtain ⟨rs, hrs⟩ := ih ⟨g.digits, g.next + 1⟩ hs2 (by simp only; omega)
    refine ⟨some (join_number_digits out) :: rs, ?_⟩
    simp only [runNext, hnx, hrs]
    have e2 : g.next + 1 + m = g.next + (m + 1) := by omega
    simp only at e2 ⊢
    rw [e2]

/-- Inverts a successful `len` computation: the width fits `u16` and the result
is the mathematical power. -/
theorem len_eq_some {g : RandomIdGenerator} {L : ℕ} (hL : len g = some L) :
    L = 10 ^ g.digits ∧ 10 ^ g.digits ≤ U16MAX ∧ 1 ≤ L := by
  simp only [len] at hL
  by_cases h : 10 ^ g.digits ≤ U16MAX
  · rw [if_pos h] at hL
    have := Option.some.inj hL
    subst this
    exact ⟨rfl, h, Nat.one_le_iff_ne_zero.mpr (by positivity)⟩
  · rw [if_neg h] at hL
    exact Option.noConfusion hL

/-- Under the §6 capability contract the encoding of the exhausted cursor,
having `d + 1` digits, is rejected. -/
theorem split_pow_rejected {d : ℕ} {permute : List ℕ → Option (List ℕ)}
    (hcap : IsCapability d permute) :
    permute (split_number_digits d (10 ^ d)) = none := by
  refine hcap.rejects_wrong_length _ ?_
  rw [split_length_pow]
  omega

/-- A bound-preserving step: from any cursor strictly below `10 ^ D`, any
outcome of `next()` keeps the cursor at most `10 ^ D` and the width fixed. -/
theorem next_bound_of_lt {permute : List ℕ → Option (List ℕ)} {D C : ℕ}
    (hC : C < 10 ^ D) :
    ∀ r g1, next permute ⟨D, C⟩ = some (r, g1) →
      g1.digits = D ∧ g1.next ≤ 10 ^ D := by
  intro r g1 h
  simp only [next] at h
  rcases hp : permute (split_number_digits D C) with _ | out
  · simp only [hp, Option.some.injEq, Prod.mk.injEq] at h
    obtain ⟨-, h2⟩ := h
    subst h2
    exact ⟨rfl, by show C ≤ 10 ^ D; omega⟩
  · simp only [hp] at h
    by_cases hinc : C + 1 ≤ U16MAX
    · simp only [hinc, if_true, Option.some.injEq, Prod.mk.injEq] at h
      obtain ⟨-, h2⟩ := h
      subst h2
      exact ⟨rfl, by show C + 1 ≤ 10 ^ D; omega⟩
    · simp only [hinc, if_false] at h
      exact Option.noConfusion h

/-- The identity capability at width `d`: succeeds exactly on sequences of
length `d` and returns them unchanged.  Used as a concrete conforming
instantiation of the §6 contract in witnesses. -/
def capId (d : ℕ) : List ℕ → Option (List ℕ) :=
  fun l => if l.length = d then some l else none

/-- A capability whose every invocation fails with `CryptoFailure`. -/
def failCap : List ℕ → Option (List ℕ) :=
  fun _ => none

/-- A (contract-violating) probe capability that accepts every input unchanged;
used to exhibit behavior of the core on inputs the §6 contract would reject. -/
def allCap : List ℕ → Option (List ℕ) :=
  fun l => some l

theorem capId_isCapability (d : ℕ) : IsCapability d (capId d) := by
  constructor
  · intro l h
    simp [capId, h]
  · intro l out h1 h2 hp
    rw [capId, if_pos h1] at hp
    cases Option.some.inj hp
    exact ⟨h1, h2⟩

theorem failCap_isCapability (d : ℕ) : IsCapability d failCap := by
  constructor
  · intro l _
    rfl
  · intro l out _ _ hp
    exact Option.noConfusion hp

end RandomId

namespace RandomId

/-- Claim C6: codec round-trip.  For every width `d ≥ 1` and every value
`v ∈ [0, 10^d)`, decoding the encoding of `v` returns `v`:
`join_number_digits (split_number_digits d v) = v`. -/
theorem c6_codec_round_trip (d v : ℕ) (hd : 1 ≤ d) (hv : v < 10 ^ d) :
    join_number_digits (split_number_digits d v) = v :=
  join_split d v

theorem c6_codec_round_trip_witness :
    (1 ≤ 4 ∧ 1234 < 10 ^ 4) ∧
      join_number_digits (split_number_digits 4 1234) = 1234 :=
  ⟨by decide, c6_codec_round_trip 4 1234 (by decide) (by decide)⟩

/-- Claim C7: fixed-width zero-padded encoding.  For every width `d ≥ 1` and
value `v < 10^d`, the encoding has exactly `d` digits, each in `[0, 9]`, laid
out most-significant first with zero padding on the left (it is the reversed
digit loop prefixed by zeros); and concretely `encode(0,4) = [0,0,0,0]`,
`encode(7,4) = [0,0,0,7]`, `encode(1234,4) = [1,2,3,4]`. -/
theorem c7_fixed_width_encoding :
    (∀ d v, 1 ≤ d → v < 10 ^ d →
      (split_number_digits d v).length = d ∧
      (∀ x ∈ split_number_digits d v, x ≤ 9) ∧
      split_number_digits d v =
        List.replicate (d - (digitsLoop v).length) 0 ++ (digitsLoop v).reverse) ∧
    split_number_digits 4 0 = [0, 0, 0, 0] ∧
    split_number_digits 4 7 = [0, 0, 0, 7] ∧
    split_number_digits 4 1234 = [1, 2, 3, 4] := by
  refine ⟨fun d v hd hv => ⟨split_length_of_lt hv, ?_, ?_⟩, by decide, by decide, by decide⟩
  · intro x hx
    have := split_digit_lt hx
    omega
  · rw [split_number_digits, List.reverse_append, List.reverse_replicate]

theorem c7_fixed_width_encoding_witness :
    (1 ≤ 4 ∧ 7 < 10 ^ 4) ∧
      (split_number_digits 4 7).length = 4 ∧
      split_number_digits 4 7 = [0, 0, 0, 7] :=
  ⟨by decide, (c7_fixed_width_encoding.1 4 7 (by decide) (by decide)).1,
    c7_fixed_width_encoding.2.2.1⟩

/-- Claim C3, counterexample to the stated error distinction: with a capability
whose invocation fails (`CryptoFailure`, modelled by `failCap`), `next()` on a
non-exhausted instance (`Cursor = 0 ≠ N = 100`) returns `none` — the very value
used as the end-of-sequence signal — because the source swallows the error with
`.ok()?`.  No distinct `CryptoFailure` condition is surfaced, and the
end-of-sequence signal is produced although `Cursor ≠ N`. -/
theorem c3_error_distinction_cex :
    next failCap ⟨2, 0⟩ = some (none, ⟨2, 0⟩) ∧
      (⟨2, 0⟩ : RandomIdGenerator).next ≠ 10 ^ 2 := by
  refine ⟨rfl, by decide⟩

/-- Claim C3 (amended): when the encryption invocation fails during `step()`,
the call returns no value — the same signal as end-of-sequence, with no distinct
`CryptoFailure` condition — and the cursor is left unchanged by the failed call,
so failed attempts are not counted as consumed. -/
theorem c3_failure_atomicity (permute : List ℕ → Option (List ℕ))
    (g : RandomIdGenerator)
    (hfail : permute (split_number_digits g.digits g.next) = none) :
    next permute g = some (none, g) :=
  next_of_fail hfail

theorem c3_failure_atomicity_witness :
    failCap (split_number_digits 2 0) = none ∧
      next failCap ⟨2, 0⟩ = some (none, ⟨2, 0⟩) :=
  ⟨rfl, c3_failure_atomicity failCap ⟨2, 0⟩ rfl⟩

end RandomId

namespace RandomId

/-- Claim C1: exhaustion terminality.  For every width `d` and every capability
conforming to the §6 contract (every key/tweak instantiation of the external
permutation), if `N = 10^d` calls to `next()` on a fresh instance all returned a
value, then the following call returns no value, and every later call likewise
returns no value with the state unchanged: the exhausted state is terminal and
never resets. -/
theorem c1_exhaustion_terminal (d : ℕ) (permute : List ℕ → Option (List ℕ))
    (hcap : IsCapability d permute) (results : List (Option ℕ))
    (g1 : RandomIdGenerator)
    (hrun : runNext permute ⟨d, 0⟩ (10 ^ d) = some (results, g1))
    (hall : ∀ r ∈ results, r.isSome) :
    next permute g1 = some (none, g1) ∧
      ∀ j, runNext permute g1 j = some (List.replicate j none, g1) := by
  obtain ⟨hd, hn⟩ := runNext_all_some (10 ^ d) ⟨d, 0⟩ g1 results hrun hall
  simp only at hd hn
  have hg : g1 = ⟨d, 10 ^ d⟩ := by
    cases g1
    simp only at hd hn
    simp [hd, hn]
  subst hg
  have hfail : permute (split_number_digits d (10 ^ d)) = none :=
    split_pow_rejected hcap
  exact ⟨next_of_fail hfail, runNext_stuck hfail⟩

theorem c1_exhaustion_terminal_witness :
    runNext (capId 1) ⟨1, 0⟩ (10 ^ 1) =
      some ([some 0, some 1, some 2, some 3, some 4,
             some 5, some 6, some 7, some 8, some 9], ⟨1, 10⟩) ∧
      next (capId 1) ⟨1, 10⟩ = some (none, ⟨1, 10⟩) ∧
      runNext (capId 1) ⟨1, 10⟩ 3 = some (List.replicate 3 none, ⟨1, 10⟩) := by
  have hrun : runNext (capId 1) ⟨1, 0⟩ (10 ^ 1) =
      some ([some 0, some 1, some 2, some 3, some 4,
             some 5, some 6, some 7, some 8, some 9], ⟨1, 10⟩) := by decide
  have h := c1_exhaustion_terminal 1 (capId 1) (capId_isCapability 1) _ _ hrun
    (by decide)
  exact ⟨hrun, h.1, h.2 3⟩

end RandomId

namespace RandomId

/-- Claim C2, counterexample to "encoding a counter value `≥ N` is never
requested (guarded by Cursor bound)": `next()` contains no cursor guard.
Probing the exhausted instance `⟨1, 10⟩` (`Cursor = N = 10`) with a capability
that accepts any input shows that the encoding of `Cursor = N` is computed and
handed to the capability, a value is returned, and the cursor escapes to
`11 > N`: only the external capability rejecting the over-length input keeps
the bound. -/
theorem c2_cursor_bound_cex :
    next allCap ⟨1, 10⟩ = some (some 10, ⟨1, 11⟩) ∧ 10 ^ 1 < 11 := by
  refine ⟨rfl, by decide⟩

/-- Claim C2 (amended): provided the capability conforms to the §6 contract
(it fails on digit sequences whose length differs from `d` — there is no cursor
guard inside `next()` itself), the invariant `0 ≤ Cursor ≤ N` holds after
construction and is preserved by every operation: any non-aborting outcome of
`next`, `nth`, `last` and `count` keeps the cursor at most `N = 10^d` and the
width fixed (`size_hint` mutates nothing). -/
theorem c2_cursor_bound_invariant {d : ℕ} {permute : List ℕ → Option (List ℕ)}
    (hcap : IsCapability d permute) (C : ℕ) (hg : C ≤ 10 ^ d) :
    (RandomIdGenerator.mk d 0).next ≤ 10 ^ d ∧
      (∀ r g1, next permute ⟨d, C⟩ = some (r, g1) →
        g1.digits = d ∧ g1.next ≤ 10 ^ d) ∧
      (∀ n r g1, nth permute ⟨d, C⟩ n = some (r, g1) →
        g1.digits = d ∧ g1.next ≤ 10 ^ d) ∧
      (∀ r g1, last permute ⟨d, C⟩ = some (r, g1) →
        g1.digits = d ∧ g1.next ≤ 10 ^ d) ∧
      (∀ r g1, count ⟨d, C⟩ = some (r, g1) →
        g1.digits = d ∧ g1.next ≤ 10 ^ d) := by
  refine ⟨by simp, ?_, ?_, ?_, ?_⟩
  · -- next
    intro r g1 h
    rcases Nat.lt_or_ge C (10 ^ d) with hlt | hge
    · exact next_bound_of_lt hlt r g1 h
    · have hCeq : C = 10 ^ d := by omega
      have hfail : permute (split_number_digits d C) = none := by
        rw [hCeq]
        exact split_pow_rejected hcap
      rw [next_of_fail hfail] at h
      injection h with h2
      injection h2 with ha hb
      subst ha
      subst hb
      exact ⟨rfl, by show C ≤ 10 ^ d; omega⟩
  · -- nth
    intro n r g1 h
    simp only [nth] at h
    by_cases hov : C + n % 65536 ≤ U16MAX
    · rw [if_pos (by show C + n % 65536 ≤ U16MAX; exact hov)] at h
      rcases hL : len ⟨d, C⟩ with _ | L
      · simp only [hL] at h
        exact Option.noConfusion h
      · simp only [hL] at h
        have hLe : L = 10 ^ d := by simpa using (len_eq_some hL).1
        by_cases hbd : C + n % 65536 ≥ L
        · rw [if_pos (by show C + n % 65536 ≥ L; exact hbd)] at h
          injection h with h2
          injection h2 with ha hb
          subst ha
          subst hb
          exact ⟨rfl, by show C ≤ 10 ^ d; omega⟩
        · rw [if_neg (by show ¬C + n % 65536 ≥ L; exact hbd)] at h
          exact next_bound_of_lt (by omega) r g1 h
    · rw [if_neg (by show ¬C + n % 65536 ≤ U16MAX; exact hov)] at h
      exact Option.noConfusion h
  · -- last
    intro r g1 h
    simp only [last] at h
    rcases hL : len ⟨d, C⟩ with _ | L
    · simp only [hL] at h
      exact Option.noConfusion h
    · simp only [hL] at h
      have hLe : L = 10 ^ d := by simpa using (len_eq_some hL).1
      have hL1 : 1 ≤ L := (len_eq_some hL).2.2
      by_cases hge : C ≥ L
      · rw [if_pos (by show C ≥ L; exact hge)] at h
        injection h with h2
        injection h2 with ha hb
        subst ha
        subst hb
        exact ⟨rfl, by show C ≤ 10 ^ d; omega⟩
      · rw [if_neg (by show ¬C ≥ L; exact hge)] at h
        exact next_bound_of_lt (by omega) r g1 h
  · -- count
    intro r g1 h
    simp only [count] at h
    rcases hR : remaining ⟨d, C⟩ with _ | R
    · simp only [hR] at h
      exact Option.noConfusion h
    · simp only [hR] at h
      rcases hL : len ⟨d, C⟩ with _ | L
      · simp only [hL] at h
        exact Option.noConfusion h
      · simp only [hL] at h
        injection h with h2
        injection h2 with ha hb
        subst ha
        subst hb
        have hLe : L = 10 ^ d := by simpa using (len_eq_some hL).1
        exact ⟨rfl, by show L ≤ 10 ^ d; omega⟩

theorem c2_cursor_bound_invariant_witness :
    (5 ≤ 10 ^ 2) ∧
      ((⟨2, 6⟩ : RandomIdGenerator).digits = 2 ∧
        (⟨2, 6⟩ : RandomIdGenerator).next ≤ 10 ^ 2) :=
  ⟨by decide,
    (c2_cursor_bound_invariant (capId_isCapability 2) 5
      (by decide)).2.1 (some 5) ⟨2, 6⟩ (by decide)⟩

end RandomId

namespace RandomId

/-- Shared helper: when the incremented cursor fits `u16`, a `next()` call never
aborts (it returns either a value or the no-value signal). -/
theorem next_isSome_of_le {permute : List ℕ → Option (List ℕ)} {d C : ℕ}
    (hC : C + 1 ≤ U16MAX) : (next permute ⟨d, C⟩).isSome := by
  rcases hp : permute (split_number_digits d C) with _ | out
  · rw [next_of_fail hp]
    rfl
  · rw [next_of_some hp hC]
    rfl

/-- Claim C4, counterexample: the skip count is truncated to 16 bits, so for
`n = 65536` (truncated to `0`) on a fresh width-2 instance, `Cursor + n =
65536 ≥ N = 100` and the claim demands an end-of-sequence signal, yet `nth`
returns a value and advances the cursor. -/
theorem c4_skip_end_condition_cex :
    nth (capId 2) ⟨2, 0⟩ 65536 = some (some 0, ⟨2, 1⟩) ∧
      10 ^ 2 ≤ 0 + 65536 := by
  refine ⟨rfl, by decide⟩

/-- Claim C4 (amended): with the skip count truncated to 16 bits
(`ñ = n mod 2^16`) and the bound-check addition not overflowing `u16`, `nth n`
signals end-of-sequence exactly when `Cursor + ñ ≥ N`, leaving the cursor
unchanged in that case; otherwise it advances the cursor by `ñ` and performs one
step, returning a value whenever the encryption invocation succeeds. -/
theorem c4_skip_end_condition (permute : List ℕ → Option (List ℕ))
    (d C n L : ℕ) (hL : len ⟨d, C⟩ = some L)
    (hov : C + n % 65536 ≤ U16MAX) :
    (L ≤ C + n % 65536 → nth permute ⟨d, C⟩ n = some (none, ⟨d, C⟩)) ∧
      (C + n % 65536 < L → ∀ out,
        permute (split_number_digits d (C + n % 65536)) = some out →
        nth permute ⟨d, C⟩ n =
          some (some (join_number_digits out), ⟨d, C + n % 65536 + 1⟩)) := by
  have hLe : L = 10 ^ d := by simpa using (len_eq_some hL).1
  have hU : 10 ^ d ≤ U16MAX := by simpa using (len_eq_some hL).2.1
  constructor
  · intro hge
    show (if C + n % 65536 ≤ U16MAX then
        match len ⟨d, C⟩ with
        | none => none
        | some L2 =>
          if C + n % 65536 ≥ L2 then some (none, ⟨d, C⟩)
          else next permute ⟨d, C + n % 65536⟩
      else none) = some (none, ⟨d, C⟩)
    rw [if_pos hov, hL]
    simp only
    rw [if_pos (by omega)]
  · intro hlt out hout
    show (if C + n % 65536 ≤ U16MAX then
        match len ⟨d, C⟩ with
        | none => none
        | some L2 =>
          if C + n % 65536 ≥ L2 then some (none, ⟨d, C⟩)
          else next permute ⟨d, C + n % 65536⟩
      else none) = some (some (join_number_digits out), ⟨d, C + n % 65536 + 1⟩)
    rw [if_pos hov, hL]
    simp only
    rw [if_neg (by omega)]
    exact next_of_some hout (by show C + n % 65536 + 1 ≤ U16MAX; omega)

theorem c4_skip_end_condition_witness :
    (len ⟨2, 98⟩ = some 100 ∧ 98 + 1 % 65536 ≤ U16MAX ∧ 98 + 1 % 65536 < 100) ∧
      nth (capId 2) ⟨2, 98⟩ 1 =
        some (some (join_number_digits [9, 9]), ⟨2, 98 + 1 % 65536 + 1⟩) :=
  ⟨by decide,
    (c4_skip_end_condition (capId 2) 2 98 1 100 (by decide) (by decide)).2
      (by decide) [9, 9] (by decide)⟩

/-- Claim C5: on success, `nth n` is equivalent to `n + 1` consecutive `step()`
calls.  If the capability succeeds on the `n` encodings being skipped and
`Cursor + n < N`, then `n` calls to `next()` land on exactly the cursor
`Cursor + n`, and `nth n` coincides (value and final state alike) with a
`next()` call from that cursor — i.e. with the result of the `(n+1)`-th call. -/
theorem c5_skip_equivalence (permute : List ℕ → Option (List ℕ))
    (d C n L : ℕ) (hL : len ⟨d, C⟩ = some L) (hb : C + n < L)
    (hs : ∀ i < n, (permute (split_number_digits d (C + i))).isSome) :
    runState permute ⟨d, C⟩ n = some ⟨d, C + n⟩ ∧
      nth permute ⟨d, C⟩ n = next permute ⟨d, C + n⟩ := by
  have hLe : L = 10 ^ d := by simpa using (len_eq_some hL).1
  have hU : 10 ^ d ≤ U16MAX := by simpa using (len_eq_some hL).2.1
  have hU16 : U16MAX = 65535 := rfl
  have hmod : n % 65536 = n := Nat.mod_eq_of_lt (by omega)
  constructor
  · obtain ⟨rs, hrs⟩ := runNext_exists_of_isSome n ⟨d, C⟩ hs
      (by show C + n ≤ U16MAX; omega)
    simp [runState, hrs]
  · show (if C + n % 65536 ≤ U16MAX then
        match len ⟨d, C⟩ with
        | none => none
        | some L2 =>
          if C + n % 65536 ≥ L2 then some (none, ⟨d, C⟩)
          else next permute ⟨d, C + n % 65536⟩
      else none) = next permute ⟨d, C + n⟩
    rw [hmod, if_pos (by omega : C + n ≤ U16MAX), hL]
    simp only
    rw [if_neg (by omega)]

theorem c5_skip_equivalence_witness :
    (len ⟨2, 5⟩ = some 100 ∧ 5 + 3 < 100) ∧
      runState (capId 2) ⟨2, 5⟩ 3 = some ⟨2, 5 + 3⟩ ∧
      nth (capId 2) ⟨2, 5⟩ 3 = next (capId 2) ⟨2, 5 + 3⟩ :=
  ⟨by decide,
    c5_skip_equivalence (capId 2) 2 5 3 100 (by decide) (by decide) (by decide)⟩

end RandomId

namespace RandomId

/-- Claim C8: `last()` contract.  With `N` computable (`len = some L`): if the
instance is already exhausted (`Cursor ≥ N`) the call signals end-of-sequence
with the state untouched; otherwise it behaves exactly as one `next()` call
from cursor `N - 1`, and whenever that single encryption invocation succeeds it
returns the one remaining value and leaves the cursor at `N` (exhausted). -/
theorem c8_last_contract (permute : List ℕ → Option (List ℕ)) (d C L : ℕ)
    (hL : len ⟨d, C⟩ = some L) :
    (L ≤ C → last permute ⟨d, C⟩ = some (none, ⟨d, C⟩)) ∧
      (C < L → last permute ⟨d, C⟩ = next permute ⟨d, L - 1⟩) ∧
      (C < L → ∀ out, permute (split_number_digits d (L - 1)) = some out →
        last permute ⟨d, C⟩ = some (some (join_number_digits out), ⟨d, L⟩)) := by
  have hU : 10 ^ d ≤ U16MAX := by simpa using (len_eq_some hL).2.1
  have hLe : L = 10 ^ d := by simpa using (len_eq_some hL).1
  have hL1 : 1 ≤ L := (len_eq_some hL).2.2
  have key : last permute ⟨d, C⟩ =
      (match len ⟨d, C⟩ with
        | none => none
        | some L2 =>
          if C ≥ L2 then some (none, ⟨d, C⟩)
          else next permute ⟨d, L2 - 1⟩) := rfl
  refine ⟨?_, ?_, ?_⟩
  · intro hge
    rw [key, hL]
    simp only
    rw [if_pos (by omega)]
  · intro hlt
    rw [key, hL]
    simp only
    rw [if_neg (by omega)]
  · intro hlt out hout
    rw [key, hL]
    simp only
    rw [if_neg (by omega)]
    have := next_of_some (g := ⟨d, L - 1⟩) hout
      (by show L - 1 + 1 ≤ U16MAX; omega)
    rw [this]
    have e : L - 1 + 1 = L := by omega
    simp only [e]

theorem c8_last_contract_witness :
    (len ⟨2, 42⟩ = some 100 ∧ 42 < 100) ∧
      last (capId 2) ⟨2, 42⟩ =
        some (some (join_number_digits [9, 9]), ⟨2, 100⟩) :=
  ⟨by decide,
    (c8_last_contract (capId 2) 2 42 100 (by decide)).2.2 (by decide) [9, 9]
      (by decide)⟩

/-- Claim C9: `count()` contract.  For every state with `Cursor ≤ N` (and `N`
computable), `count` returns `remaining() = N - Cursor` and sets the cursor to
`N`, leaving the instance exhausted without producing any values. -/
theorem c9_drain_count (d C L : ℕ) (hL : len ⟨d, C⟩ = some L) (hc : C ≤ L) :
    remaining ⟨d, C⟩ = some (L - C) ∧
      count ⟨d, C⟩ = some (L - C, ⟨d, L⟩) := by
  have hrem : remaining ⟨d, C⟩ = some (L - C) := by
    show (match len ⟨d, C⟩ with
      | none => none
      | some L2 => if C ≤ L2 then some (L2 - C) else none) = some (L - C)
    rw [hL]
    simp only
    rw [if_pos hc]
  refine ⟨hrem, ?_⟩
  simp only [count, hrem, hL]

theorem c9_drain_count_witness :
    (len ⟨2, 37⟩ = some 100 ∧ 37 ≤ 100) ∧
      remaining ⟨2, 37⟩ = some (100 - 37) ∧
      count ⟨2, 37⟩ = some (100 - 37, ⟨2, 100⟩) :=
  ⟨by decide, c9_drain_count 2 37 100 (by decide) (by decide)⟩

end RandomId

namespace RandomId

/-- Claim C10, counterexample: within the claimed-safe regime (`digits = 4`,
`Cursor = 10000 ≤ N`), the bound check of `nth` is not free of 16-bit overflow:
for skip count `60000` the `u16` addition `10000 + 60000` exceeds `u16::MAX`
and the call aborts (outer `none`) instead of performing a bound comparison. -/
theorem c10_width_bounds_cex :
    nth allCap ⟨4, 10000⟩ 60000 = none ∧
      (1 ≤ 4 ∧ 4 ≤ 4 ∧ 10000 ≤ 10 ^ 4) := by
  refine ⟨rfl, by decide⟩

/-- Claim C10 (amended): for every `1 ≤ digits ≤ 4` and `Cursor ≤ N = 10^digits`,
the computation of `len`, `remaining`, `size_hint` and `count` is free of 16-bit
overflow and underflow and returns the exact mathematical values; `nth` and
`last` never abort provided (for `nth`) the bound-check addition
`Cursor + (n mod 2^16)` itself stays within `u16`; and for every `digits ≥ 5`
the domain size `10^digits` no longer fits `u16` and the `len()` computation
aborts. -/
theorem c10_width_bounds (d C : ℕ) (hd1 : 1 ≤ d) (hd4 : d ≤ 4)
    (hc : C ≤ 10 ^ d) :
    len ⟨d, C⟩ = some (10 ^ d) ∧
      remaining ⟨d, C⟩ = some (10 ^ d - C) ∧
      size_hint ⟨d, C⟩ = some (10 ^ d - C, some (10 ^ d - C)) ∧
      count ⟨d, C⟩ = some (10 ^ d - C, ⟨d, 10 ^ d⟩) ∧
      (∀ permute n, C + n % 65536 ≤ U16MAX →
        (nth permute ⟨d, C⟩ n).isSome) ∧
      (∀ permute, (last permute ⟨d, C⟩).isSome) ∧
      (∀ e C2, 5 ≤ e → len ⟨e, C2⟩ = none) := by
  have hU16 : U16MAX = 65535 := rfl
  have hpow : 10 ^ d ≤ U16MAX := by
    have h4 : 10 ^ d ≤ 10 ^ 4 := Nat.pow_le_pow_right (by norm_num) hd4
    omega
  have hlen : len ⟨d, C⟩ = some (10 ^ d) := by
    show (if 10 ^ d ≤ U16MAX then some (10 ^ d) else none) = some (10 ^ d)
    rw [if_pos hpow]
  have hrem : remaining ⟨d, C⟩ = some (10 ^ d - C) := by
    show (match len ⟨d, C⟩ with
      | none => none
      | some L2 => if C ≤ L2 then some (L2 - C) else none) = some (10 ^ d - C)
    rw [hlen]
    simp only
    rw [if_pos hc]
  refine ⟨hlen, hrem, ?_, ?_, ?_, ?_, ?_⟩
  · simp only [size_hint, hrem]
  · simp only [count, hrem, hlen]
  · intro permute n hov
    have key : nth permute ⟨d, C⟩ n =
        (if C + n % 65536 ≤ U16MAX then
          match len ⟨d, C⟩ with
          | none => none
          | some L2 =>
            if C + n % 65536 ≥ L2 then some (none, ⟨d, C⟩)
            else next permute ⟨d, C + n % 65536⟩
        else none) := rfl
    rw [key, if_pos hov, hlen]
    simp only
    by_cases hbd : C + n % 65536 ≥ 10 ^ d
    · rw [if_pos hbd]
      rfl
    · rw [if_neg hbd]
      exact next_isSome_of_le (by show C + n % 65536 + 1 ≤ U16MAX; omega)
  · intro permute
    have key : last permute ⟨d, C⟩ =
        (match len ⟨d, C⟩ with
          | none => none
          | some L2 =>
            if C ≥ L2 then some (none, ⟨d, C⟩)
            else next permute ⟨d, L2 - 1⟩) := rfl
    rw [key, hlen]
    simp only
    by_cases hge : C ≥ 10 ^ d
    · rw [if_pos hge]
      rfl
    · rw [if_neg hge]
      exact next_isSome_of_le
        (by show 10 ^ d - 1 + 1 ≤ U16MAX
            have h1 : 1 ≤ 10 ^ d := Nat.one_le_pow _ _ (by norm_num)
            omega)
  · intro e C2 he
    show (if 10 ^ e ≤ U16MAX then some (10 ^ e) else none) = none
    rw [if_neg]
    intro hcon
    have h5 : 10 ^ 5 ≤ 10 ^ e := Nat.pow_le_pow_right (by norm_num) he
    omega

theorem c10_width_bounds_witness :
    (1 ≤ 2 ∧ 2 ≤ 4 ∧ 37 ≤ 10 ^ 2) ∧
      remaining ⟨2, 37⟩ = some (10 ^ 2 - 37) ∧
      len ⟨5, 123⟩ = none :=
  ⟨by decide, (c10_width_bounds 2 37 (by decide) (by decide) (by decide)).2.1,
    (c10_width_bounds 2 37 (by decide) (by decide) (by decide)).2.2.2.2.2.2
      5 123 (by decide)⟩

end RandomId
